import Mathlib

/-!
Shallow embedding of the progressive audio-transcription pipeline of
`server/openai.ts`, `server/routes.ts`, `server/storage.ts` and the data
shapes of `shared/schema.ts`.  Timestamps and durations are modelled as
rationals, byte sizes and counters as naturals, fallible operations as
`Except`, and the effectful collaborators (media tools, external APIs,
database row) as explicit parameters and state.
-/

/-- The `TranscriptionSegment` type of `shared/schema.ts`.  The source field
`end` is a Lean keyword and is rendered `endTime`; the optional `speaker`
field is an `Option`. -/
structure TranscriptionSegment where
  start : ℚ
  endTime : ℚ
  text : String
  speaker : Option String
deriving Repr, DecidableEq

/-- A chunk descriptor as produced by `splitAudioIntoChunks` in
`server/openai.ts`: an output file path and its start offset (seconds) on the
global timeline. -/
structure AudioChunk where
  path : String
  startOffset : ℚ
deriving Repr, DecidableEq

/-- Source constant `CHUNK_DURATION_SECONDS = 600` (`server/openai.ts`). -/
def CHUNK_DURATION_SECONDS : ℚ := 600

/-- Source constant `MAX_FILE_SIZE_MB = 25` (`server/openai.ts`). -/
def MAX_FILE_SIZE_MB : ℕ := 25

/-- Chunk file naming: the source writes `baseName + "_chunk" + i + ext`,
where `baseName`/`ext` split `filePath` at its final extension.  The exact
string surgery is irrelevant to every verified property (only the
single-chunk case's path is ever constrained), so the name is derived here by
suffixing the whole path. -/
def chunkFileName (filePath : String) (i : ℕ) : String :=
  filePath ++ "_chunk" ++ toString i

/-- The `splitAudioIntoChunks` function of `server/openai.ts` (lines 47-71),
with the probed `duration` passed explicitly (the source obtains it from
`getAudioDuration`).  If the duration fits in one chunk the input file itself
is the only chunk, at offset `0`; otherwise `ceil(duration / chunkDuration)`
chunk files are produced, chunk `i` at offset `i * chunkDuration`. -/
def splitAudioIntoChunks (filePath : String) (chunkDuration duration : ℚ) :
    List AudioChunk :=
  if duration ≤ chunkDuration then
    [⟨filePath, 0⟩]
  else
    let numChunks : ℕ := (⌈duration / chunkDuration⌉).toNat
    (List.range numChunks).map fun i => ⟨chunkFileName filePath i, i * chunkDuration⟩

/-- A raw segment as returned by the external transcription API for one chunk,
with timestamps relative to that chunk (the `transcription.segments` entries
read by `transcribeChunkWithTimestamps` in `server/openai.ts`). -/
structure RawSegment where
  start : ℚ
  endTime : ℚ
  text : String
deriving Repr, DecidableEq

/-- The re-basing performed by `transcribeChunkWithTimestamps`
(`server/openai.ts` lines 131-136): every raw segment's start and end are
shifted by the chunk's `startOffset`, the text is trimmed, and `speaker`
starts out unset. -/
def rebaseSegments (startOffset : ℚ) (raw : List RawSegment) :
    List TranscriptionSegment :=
  raw.map fun seg => ⟨seg.start + startOffset, seg.endTime + startOffset, seg.text.trim, none⟩

/-- Concatenation of per-chunk segment lists in chunk-index order, chunk `i`
re-based by its splitter-assigned offset `i * chunkDuration`, exactly as the
loop of `processTranscriptionProgressive` (`server/routes.ts` lines 895-922)
concatenates the results of the chunks produced by `splitAudioIntoChunks`. -/
def concatChunkSegments (chunkDuration : ℚ) (responses : List (List RawSegment)) :
    List TranscriptionSegment :=
  (responses.enum.map fun p => rebaseSegments ((p.1 : ℚ) * chunkDuration) p.2).flatten

/-- Minute bucket of a timestamp: `Math.floor(start / 60)`. -/
def minuteOf (start : ℚ) : ℤ := ⌊start / 60⌋

/-- One merge step of `groupSegmentsByMinute` (`server/openai.ts` lines
95-100): the running segment absorbs the next segment of the same minute by
appending its text after a space, moving `end` to the absorbed segment's end,
and clearing the speaker when a truthy, differing speaker appears. -/
def mergeStep (cur seg : TranscriptionSegment) : TranscriptionSegment :=
  { cur with
    text := cur.text ++ " " ++ seg.text
    endTime := seg.endTime
    speaker :=
      match seg.speaker with
      | some s => if s ≠ "" ∧ some s ≠ cur.speaker then none else cur.speaker
      | none => cur.speaker }

/-- The loop of `groupSegmentsByMinute` (`server/openai.ts` lines 91-111):
`currentMinute` is the bucket of the segment that opened the running group;
a segment in the same bucket is merged, any other segment flushes the running
group and opens a new one (the source copies all four fields, i.e. the
segment itself). -/
def groupGo (currentMinute : ℤ) (currentSegment : TranscriptionSegment) :
    List TranscriptionSegment → List TranscriptionSegment
  | [] => [currentSegment]
  | seg :: rest =>
    if minuteOf seg.start = currentMinute then
      groupGo currentMinute (mergeStep currentSegment seg) rest
    else
      currentSegment :: groupGo (minuteOf seg.start) seg rest

/-- The `groupSegmentsByMinute` function of `server/openai.ts` (lines 79-115). -/
def groupSegmentsByMinute : List TranscriptionSegment → List TranscriptionSegment
  | [] => []
  | s :: rest => groupGo (minuteOf s.start) s rest

/-- Companion of `groupGo` that collects, instead of each merged segment, the
run of input segments merged into it. -/
def runsGo (currentMinute : ℤ) (acc : List TranscriptionSegment) :
    List TranscriptionSegment → List (List TranscriptionSegment)
  | [] => [acc]
  | seg :: rest =>
    if minuteOf seg.start = currentMinute then
      runsGo currentMinute (acc ++ [seg]) rest
    else
      acc :: runsGo (minuteOf seg.start) [seg] rest

/-- The minute-bucket runs of a segment list: the `j`-th run is exactly the
set of consecutive input segments that `groupSegmentsByMinute` merges into
its `j`-th output segment. -/
def minuteRuns : List TranscriptionSegment → List (List TranscriptionSegment)
  | [] => []
  | s :: rest => runsGo (minuteOf s.start) [s] rest

/-- Merge of one nonempty run, folding `mergeStep` from its first element. -/
def mergeRun : List TranscriptionSegment → TranscriptionSegment
  | [] => ⟨0, 0, "", none⟩
  | s :: rest => rest.foldl mergeStep s

/-- JavaScript `a || b` on `string | undefined` values: `undefined` and the
empty string are falsy. -/
def jsOrString (a b : Option String) : Option String :=
  match a with
  | some s => if s = "" then b else some s
  | none => b

/-- Lookup in the `speakerMap` built by `identifySpeakers`: the map is filled
by `Map.set` over the validated `(index, speaker)` pairs, so the last write
for an index wins. -/
def speakerMapGet (pairs : List (ℤ × String)) (i : ℕ) : Option String :=
  ((pairs.filter fun q => q.1 = (i : ℤ)).getLast?).map Prod.snd

/-- Outcome of the language-model call inside `identifySpeakers`: an error
(API failure or unparsable output, both caught by the source `try`/`catch`)
or the validated list of `(index, speaker)` pairs (entries whose index is not
a number or whose speaker is not a string are dropped before the map is
built; an absent or non-array `speakers` field yields the empty list). -/
abbrev SpeakerCallResult := Except String (List (ℤ × String))

/-- The `identifySpeakers` function of `server/openai.ts` (lines 144-199),
with the external call's outcome passed explicitly. -/
def identifySpeakers (segments : List TranscriptionSegment)
    (call : SpeakerCallResult) : List TranscriptionSegment :=
  if segments.length = 0 then segments
  else
    match call with
    | .error _ => segments
    | .ok speakers =>
      segments.enum.map fun p =>
        { p.2 with speaker := jsOrString (speakerMapGet speakers p.1) p.2.speaker }

/-- JavaScript whitespace class `\s`, restricted to its ASCII members (the
distinction plays no role in any property below). -/
def jsIsSpace (c : Char) : Bool :=
  c == ' ' || c == '\t' || c == '\n' || c == '\r' || c == '\x0b' || c == '\x0c'

/-- Token count `text.split(/\s+/).filter(Boolean).length` used at
`server/routes.ts` lines 272 and 925.  Splitting at single whitespace
characters differs from splitting at whitespace runs only in extra empty
tokens, which the `Boolean` filter removes, so the count is the number of
maximal non-whitespace runs either way. -/
def jsWordCount (s : String) : ℕ :=
  ((s.split jsIsSpace).filter fun t => !t.isEmpty).length

/-- Page count `Math.ceil(wordCount / 250)` used at `server/routes.ts`
lines 273 and 926. -/
def jsPageCount (wordCount : ℕ) : ℕ := (⌈(wordCount : ℚ) / 250⌉).toNat

/-- The chunk status union of `TranscriptionChunkProgress`
(`shared/schema.ts`). -/
inductive ChunkStatus
  | pending
  | processing
  | completed
  | error
deriving Repr, DecidableEq

/-- The job status strings of the `transcriptions` table. -/
inductive JobStatus
  | pending
  | preparing
  | processing
  | completed
  | error
deriving Repr, DecidableEq

/-- The `TranscriptionChunkProgress` type of `shared/schema.ts`. -/
structure TranscriptionChunkProgress where
  chunkIndex : ℕ
  totalChunks : ℕ
  status : ChunkStatus
  text : Option String := none
  segments : Option (List TranscriptionSegment) := none
  startOffset : ℚ
  error : Option String := none
deriving Repr, DecidableEq

/-- A `Partial<TranscriptionChunkProgress>` as passed to
`storage.updateChunkProgress`: a `some` field is present in the object
spread, a `none` field absent. -/
structure ChunkProgressPatch where
  status : Option ChunkStatus := none
  text : Option String := none
  segments : Option (List TranscriptionSegment) := none
  error : Option String := none
deriving Repr, DecidableEq

/-- Object spread `{ ...chunk, ...patch }` for a partial chunk update. -/
def applyPatch (c : TranscriptionChunkProgress) (p : ChunkProgressPatch) :
    TranscriptionChunkProgress :=
  { c with
    status := p.status.getD c.status
    text := p.text.or c.text
    segments := p.segments.or c.segments
    error := p.error.or c.error }

/-- The fields of a `transcriptions` row (`shared/schema.ts`) that the
pipeline reads or writes.  `completedAt` records whether a completion
timestamp was written. -/
structure TranscriptionRow where
  status : JobStatus
  duration : Option ℤ := none
  transcriptionText : Option String := none
  segments : Option (List TranscriptionSegment) := none
  wordCount : Option ℕ := none
  pageCount : Option ℕ := none
  totalChunks : Option ℕ := none
  completedChunks : Option ℕ := some 0
  chunkProgress : Option (List TranscriptionChunkProgress) := none
  completedAt : Bool := false
deriving Repr, DecidableEq

/-- The `storage.updateChunkProgress` method (`server/storage.ts` lines
257-274): read the row's chunk list (`|| []`), overwrite entry `chunkIndex`
with the spread of the patch when that entry exists, then recompute
`completedChunks` as the number of entries whose status is `completed`, and
persist both. -/
def updateChunkProgress (row : TranscriptionRow) (chunkIndex : ℕ)
    (progress : ChunkProgressPatch) : TranscriptionRow :=
  let chunkProgress := row.chunkProgress.getD []
  let chunkProgress :=
    match chunkProgress[chunkIndex]? with
    | some c => chunkProgress.set chunkIndex (applyPatch c progress)
    | none => chunkProgress
  let completedChunks :=
    (chunkProgress.filter fun c => c.status == ChunkStatus.completed).length
  { row with chunkProgress := some chunkProgress, completedChunks := some completedChunks }

/-- The `users` row fields the credit ledger touches. -/
structure UserRow where
  credits : Option ℤ := some 0
  freeTranscriptionUsed : Bool := false
deriving Repr, DecidableEq

/-- The `storage.deductCredits` method (`server/storage.ts` lines 182-200):
read the current balance (`credits || 0`), throw when it is below `amount`,
otherwise store the decremented balance.  The `User not found` branch is
outside this single-user model. -/
def deductCredits (user : UserRow) (amount : ℤ) : Except String UserRow :=
  let currentCredits := user.credits.getD 0
  if currentCredits < amount then
    .error "Creditos insuficientes"
  else
    .ok { user with credits := some (currentCredits - amount) }

/-- The `storage.markFreeTranscriptionUsed` method (`server/storage.ts`
lines 154-159). -/
def markFreeTranscriptionUsed (user : UserRow) : UserRow :=
  { user with freeTranscriptionUsed := true }

/-- One call into the credit ledger. -/
inductive LedgerCall
  | markFreeUsed
  | deduct (amount : ℤ)
deriving Repr, DecidableEq

/-- The credit-settlement statement of `processTranscriptionProgressive`
(`server/routes.ts` lines 938-943), in isolation. -/
def settleCredits (useFreeCredit : Bool) (pageCount : ℤ) (user : UserRow) :
    Except String UserRow :=
  if useFreeCredit then .ok (markFreeTranscriptionUsed user)
  else deductCredits user pageCount

/-- Outcome of `transcribeSingleChunk` for one chunk: transcribed text and
already re-based segments, or the message of a thrown error. -/
inductive ChunkResult
  | ok (text : String) (segments : List TranscriptionSegment)
  | err (message : String)
deriving Repr, DecidableEq

/-- Whether a chunk outcome is a success. -/
def ChunkResult.isOk : ChunkResult → Bool
  | .ok _ _ => true
  | .err _ => false

/-- The chunk loop of `processTranscriptionProgressive` (`server/routes.ts`
lines 895-922), processing the remaining chunks from index `i`: mark the
chunk `processing`; on success append its text (space-joined) and segments to
the accumulators and mark it `completed` with text and segments; on failure
mark it `error` with the message and rethrow (modelled as returning the
error). -/
def processChunksLoop (results : ℕ → ChunkResult) :
    List AudioChunk → ℕ → String → List TranscriptionSegment → TranscriptionRow →
    TranscriptionRow × Except String (String × List TranscriptionSegment)
  | [], _, fullText, allSegments, row => (row, .ok (fullText, allSegments))
  | _chunk :: rest, i, fullText, allSegments, row =>
    let row1 := updateChunkProgress row i { status := some .processing }
    match results i with
    | .ok text segments =>
      let fullText1 := fullText ++ (if fullText = "" then "" else " ") ++ text
      let allSegments1 := allSegments ++ segments
      let row2 := updateChunkProgress row1 i
        { status := some .completed, text := some text, segments := some segments }
      processChunksLoop results rest (i + 1) fullText1 allSegments1 row2
    | .err message =>
      let row2 := updateChunkProgress row1 i
        { status := some .error, error := some message }
      (row2, .error message)

/-- The initial `chunkProgress` array built by
`processTranscriptionProgressive` (`server/routes.ts` lines 876-881): one
`pending` entry per planned chunk, carrying its index, the total count and
its start offset. -/
def initChunkProgress (chunks : List AudioChunk) : List TranscriptionChunkProgress :=
  chunks.enum.map fun p =>
    { chunkIndex := p.1
      totalChunks := chunks.length
      status := .pending
      startOffset := p.2.startOffset }

/-- The `storage.updateTranscription` call of `server/routes.ts` lines
883-889: persist status `processing`, the rounded duration, `totalChunks`,
`completedChunks = 0` and the pending chunk list before any chunk work. -/
def initProgressRow (row0 : TranscriptionRow) (chunks : List AudioChunk)
    (duration : ℚ) : TranscriptionRow :=
  { row0 with
    status := JobStatus.processing
    duration := some ⌊duration + 1/2⌋
    totalChunks := some chunks.length
    completedChunks := some 0
    chunkProgress := some (initChunkProgress chunks) }

/-- The `storage.updateTranscription` call of `server/routes.ts` lines
924-936: persist the assembled transcript, its segments, the recomputed word
and page counts, status `completed` and a completion timestamp. -/
def finalizeSuccess (row2 : TranscriptionRow) (fullText : String)
    (allSegments : List TranscriptionSegment) : TranscriptionRow :=
  let wordCount := jsWordCount fullText
  let pageCount := jsPageCount wordCount
  { row2 with
    transcriptionText := some fullText
    segments := some allSegments
    wordCount := some wordCount
    pageCount := some pageCount
    status := JobStatus.completed
    completedAt := true }

/-- The `processTranscriptionProgressive` function (`server/routes.ts` lines
858-959), with the effectful collaborators passed as data: `chunks` and
`duration` stand for the result of `prepareAudioChunks`, and `results i` for
the outcome of `transcribeSingleChunk` on chunk `i`.  Returns the final
transcription row, the final user row, and the list of credit-ledger calls
made.  A failure anywhere — a chunk error rethrown by the loop or a
`deductCredits` throw — is caught by the outer handler, which persists status
`error` on whatever was last written. -/
def processTranscriptionProgressive (results : ℕ → ChunkResult)
    (chunks : List AudioChunk) (duration : ℚ) (useFreeCredit : Bool)
    (row0 : TranscriptionRow) (user : UserRow) :
    TranscriptionRow × UserRow × List LedgerCall :=
  match processChunksLoop results chunks 0 "" [] (initProgressRow row0 chunks duration) with
  | (row2, Except.ok (fullText, allSegments)) =>
    let pageCount := jsPageCount (jsWordCount fullText)
    let row3 := finalizeSuccess row2 fullText allSegments
    if useFreeCredit then
      (row3, markFreeTranscriptionUsed user, [LedgerCall.markFreeUsed])
    else
      match deductCredits user (pageCount : ℤ) with
      | .ok user1 => (row3, user1, [LedgerCall.deduct (pageCount : ℤ)])
      | .error _ =>
        ({ row3 with status := JobStatus.error }, user, [LedgerCall.deduct (pageCount : ℤ)])
  | (row2, Except.error _) =>
    ({ row2 with status := JobStatus.error }, user, [])

/-- The transcription-text branch of the `PUT /api/transcriptions/:id`
handler (`server/routes.ts` lines 264-276): persist the edited text together
with the recomputed word and page counts. -/
def saveEditedTranscriptionText (row : TranscriptionRow)
    (transcriptionText : String) : TranscriptionRow :=
  let wordCount := jsWordCount transcriptionText
  let pageCount := jsPageCount wordCount
  { row with
    transcriptionText := some transcriptionText
    wordCount := some wordCount
    pageCount := some pageCount }

/-- The `supportedFormats` list of `convertToMp3` (`server/openai.ts`
line 29): containers the external API accepts natively. -/
def supportedFormats : List String :=
  [".mp3", ".mp4", ".mpeg", ".mpga", ".m4a", ".wav", ".webm"]

/-- Result of the media normalizer: either the input path passed through
unchanged (zero-copy fast path) or a freshly transcoded file. -/
inductive NormalizeResult
  | passthrough (path : String)
  | transcoded (path : String)
deriving Repr, DecidableEq

/-- Modelled from the spec: `prepareAudioChunks` is imported by
`server/routes.ts` from `./openai` but is absent from the provided
`server/openai.ts`; spec section 4.2 describes its normalizer.  The zero-copy
fast path (return the input unchanged) requires a natively accepted
container, size at most 25 MB, and standard quality; every premium-quality
input is transcoded to a new path derived from the input name. -/
def normalizeForQuality (isPremiumQuality : Bool) (ext : String)
    (sizeBytes : ℕ) (inputPath : String) : NormalizeResult :=
  if isPremiumQuality = false ∧ ext ∈ supportedFormats ∧
      sizeBytes ≤ MAX_FILE_SIZE_MB * 1024 * 1024 then
    .passthrough inputPath
  else
    .transcoded (inputPath ++ "_converted.mp3")

/-! Theorems -/

/-- C1: for every probed duration `d` and maximum chunk duration `c > 0`,
`splitAudioIntoChunks` returns exactly one chunk whose path is the input file
itself and whose `startOffset` is `0` when `d ≤ c`; otherwise it returns
`ceil(d / c)` chunks in index order whose offsets are exactly
`0, c, 2c, ..., (ceil(d/c) - 1) * c`. -/
theorem splitAudioIntoChunks_spec (filePath : String) (c d : ℚ) (hc : 0 < c) :
    (d ≤ c → splitAudioIntoChunks filePath c d = [⟨filePath, 0⟩]) ∧
    (c < d →
      ((splitAudioIntoChunks filePath c d).length : ℤ) = ⌈d / c⌉ ∧
      ∀ i, ∀ hi : i < (splitAudioIntoChunks filePath c d).length,
        ((splitAudioIntoChunks filePath c d).get ⟨i, hi⟩).startOffset = (i : ℚ) * c) := by
  constructor
  · intro h
    simp [splitAudioIntoChunks, h]
  · intro h
    have hnot : ¬ d ≤ c := not_le.mpr h
    have hceil : (0 : ℤ) ≤ ⌈d / c⌉ := by
      have hpos : (0 : ℚ) < d / c := div_pos (lt_trans hc h) hc
      exact le_of_lt (Int.ceil_pos.mpr hpos)
    constructor
    · simp [splitAudioIntoChunks, hnot, Int.toNat_of_nonneg hceil]
    · intro i hi
      simp only [splitAudioIntoChunks, hnot, if_false, List.get_eq_getElem]
      rw [List.getElem_map, List.getElem_range]

/-- Witness for C1 at `c = 600`, `d = 1500`. -/
theorem splitAudioIntoChunks_spec_witness :
    (0 : ℚ) < 600 ∧
    (((1500 : ℚ) ≤ 600 → splitAudioIntoChunks "a.mp3" 600 1500 = [⟨"a.mp3", 0⟩]) ∧
      ((600 : ℚ) < 1500 →
        ((splitAudioIntoChunks "a.mp3" 600 1500).length : ℤ) = ⌈(1500 : ℚ) / 600⌉ ∧
        ∀ i, ∀ hi : i < (splitAudioIntoChunks "a.mp3" 600 1500).length,
          ((splitAudioIntoChunks "a.mp3" 600 1500).get ⟨i, hi⟩).startOffset = (i : ℚ) * 600)) :=
  ⟨by decide, splitAudioIntoChunks_spec "a.mp3" 600 1500 (by decide)⟩

/-- C4: after every `updateChunkProgress` call the persisted `completedChunks`
equals the number of `chunkProgress` entries whose status is `completed`;
consequently, whenever `chunkProgress` has exactly `totalChunks` entries,
`completedChunks ≤ totalChunks`. -/
theorem updateChunkProgress_spec (row : TranscriptionRow) (chunkIndex : ℕ)
    (progress : ChunkProgressPatch) (n : ℕ)
    (htot : (updateChunkProgress row chunkIndex progress).totalChunks = some n)
    (hlen : ((updateChunkProgress row chunkIndex progress).chunkProgress.getD []).length = n) :
    (updateChunkProgress row chunkIndex progress).completedChunks =
      some (((updateChunkProgress row chunkIndex progress).chunkProgress.getD []).filter
        (fun ch => ch.status == ChunkStatus.completed)).length ∧
    ∀ k, (updateChunkProgress row chunkIndex progress).completedChunks = some k → k ≤ n := by
  constructor
  · simp [updateChunkProgress]
  · intro k hk
    have hk' : k = (((updateChunkProgress row chunkIndex progress).chunkProgress.getD []).filter
        (fun ch => ch.status == ChunkStatus.completed)).length := by
      have : (updateChunkProgress row chunkIndex progress).completedChunks =
          some (((updateChunkProgress row chunkIndex progress).chunkProgress.getD []).filter
            (fun ch => ch.status == ChunkStatus.completed)).length := by
        simp [updateChunkProgress]
      rw [this] at hk
      exact (Option.some.inj hk).symm
    rw [hk', ← hlen]
    exact List.length_filter_le _ _

/-- Concrete two-chunk row used to witness C4. -/
def sampleRowC4 : TranscriptionRow :=
  { status := JobStatus.processing
    totalChunks := some 2
    completedChunks := some 1
    chunkProgress := some
      [⟨0, 2, ChunkStatus.completed, some "oi", some [], 0, none⟩,
       ⟨1, 2, ChunkStatus.processing, none, none, 600, none⟩] }

/-- Witness for C4: completing the second of two chunks. -/
theorem updateChunkProgress_spec_witness :
    (updateChunkProgress sampleRowC4 1 { status := some ChunkStatus.completed }).completedChunks =
      some (((updateChunkProgress sampleRowC4 1
          { status := some ChunkStatus.completed }).chunkProgress.getD []).filter
        (fun ch => ch.status == ChunkStatus.completed)).length ∧
    ∀ k, (updateChunkProgress sampleRowC4 1
        { status := some ChunkStatus.completed }).completedChunks = some k → k ≤ 2 :=
  updateChunkProgress_spec sampleRowC4 1 { status := some ChunkStatus.completed } 2 rfl rfl

/-- C5: the zero-copy fast path of the media normalizer (returning the input
path unchanged when the container is natively accepted and the size is at or
below 25 MB) applies only to standard quality; every premium-quality input is
transcoded and the input path is never returned unchanged. -/
theorem normalizeForQuality_premium_spec (ext : String) (sizeBytes : ℕ) (inputPath : String) :
    normalizeForQuality true ext sizeBytes inputPath =
      NormalizeResult.transcoded (inputPath ++ "_converted.mp3") ∧
    (∀ p, normalizeForQuality true ext sizeBytes inputPath ≠ NormalizeResult.passthrough p) ∧
    inputPath ++ "_converted.mp3" ≠ inputPath ∧
    (∀ q, normalizeForQuality q ext sizeBytes inputPath = NormalizeResult.passthrough inputPath →
      q = false ∧ ext ∈ supportedFormats ∧ sizeBytes ≤ MAX_FILE_SIZE_MB * 1024 * 1024) := by
  refine ⟨?_, ?_, ?_, ?_⟩
  · simp [normalizeForQuality]
  · intro p h
    simp [normalizeForQuality] at h
  · intro h
    have h2 := congrArg String.length h
    rw [String.length_append] at h2
    have h3 : ("_converted.mp3" : String).length = 14 := rfl
    omega
  · intro q h
    by_cases hcond : q = false ∧ ext ∈ supportedFormats ∧
        sizeBytes ≤ MAX_FILE_SIZE_MB * 1024 * 1024
    · exact hcond
    · rw [normalizeForQuality, if_neg hcond] at h
      cases h

/-- Witness for C5 at a natively accepted, small input. -/
theorem normalizeForQuality_premium_spec_witness :
    normalizeForQuality true ".mp3" 1000 "a.mp3" =
      NormalizeResult.transcoded ("a.mp3" ++ "_converted.mp3") ∧
    (∀ p, normalizeForQuality true ".mp3" 1000 "a.mp3" ≠ NormalizeResult.passthrough p) ∧
    "a.mp3" ++ "_converted.mp3" ≠ "a.mp3" ∧
    (∀ q, normalizeForQuality q ".mp3" 1000 "a.mp3" = NormalizeResult.passthrough "a.mp3" →
      q = false ∧ ".mp3" ∈ supportedFormats ∧ 1000 ≤ MAX_FILE_SIZE_MB * 1024 * 1024) :=
  normalizeForQuality_premium_spec ".mp3" 1000 "a.mp3"

/-- Index-wise description of the success path of `identifySpeakers`: entry
`i` of the output is entry `i` of the input with its speaker replaced by
`speakerMap.get(i) || seg.speaker`. -/
theorem identifySpeakers_ok_getElem (segments : List TranscriptionSegment)
    (m : List (ℤ × String)) (i : ℕ) :
    (identifySpeakers segments (Except.ok m))[i]? =
      (segments[i]?).map fun s =>
        { s with speaker := jsOrString (speakerMapGet m i) s.speaker } := by
  by_cases hlen : segments.length = 0
  · have hnil : segments = [] := List.length_eq_zero.mp hlen
    subst hnil
    simp [identifySpeakers]
  · simp only [identifySpeakers, hlen, if_false]
    rw [List.getElem?_map, List.getElem?_enum]
    cases segments[i]? <;> simp

/-- C6: if the speaker-attribution call fails, `identifySpeakers` returns the
original segments unchanged instead of propagating the error, and on the
success path every segment for which the model returned no label keeps the
speaker label it already had. -/
theorem identifySpeakers_degrades_gracefully (segments : List TranscriptionSegment) :
    (∀ e, identifySpeakers segments (Except.error e) = segments) ∧
    (∀ (m : List (ℤ × String)) (i : ℕ), speakerMapGet m i = none →
      ((identifySpeakers segments (Except.ok m))[i]?).map TranscriptionSegment.speaker =
        (segments[i]?).map TranscriptionSegment.speaker) := by
  constructor
  · intro e
    by_cases h : segments.length = 0 <;> simp [identifySpeakers, h]
  · intro m i h
    rw [identifySpeakers_ok_getElem]
    cases hs : segments[i]? <;> simp [h, jsOrString]

/-- Concrete one-segment list used to witness C6. -/
def sampleSegsC6 : List TranscriptionSegment := [⟨0, 1, "ola", some "X"⟩]

/-- Witness for C6: a failed call returns the input; an empty speaker map
leaves the existing label in place. -/
theorem identifySpeakers_degrades_gracefully_witness :
    identifySpeakers sampleSegsC6 (Except.error "falha") = sampleSegsC6 ∧
    ((identifySpeakers sampleSegsC6 (Except.ok []))[0]?).map TranscriptionSegment.speaker =
      (sampleSegsC6[0]?).map TranscriptionSegment.speaker :=
  ⟨(identifySpeakers_degrades_gracefully sampleSegsC6).1 "falha",
   (identifySpeakers_degrades_gracefully sampleSegsC6).2 [] 0 rfl⟩

/-- C10: `identifySpeakers` returns a list of exactly the input's length and
for every index leaves `start`, `end` and `text` identical to the input —
on both the success and the error path only the `speaker` field can differ. -/
theorem identifySpeakers_frame (segments : List TranscriptionSegment)
    (call : SpeakerCallResult) :
    (identifySpeakers segments call).length = segments.length ∧
    ∀ (i : ℕ),
      ((identifySpeakers segments call)[i]?).map TranscriptionSegment.start =
        (segments[i]?).map TranscriptionSegment.start ∧
      ((identifySpeakers segments call)[i]?).map TranscriptionSegment.endTime =
        (segments[i]?).map TranscriptionSegment.endTime ∧
      ((identifySpeakers segments call)[i]?).map TranscriptionSegment.text =
        (segments[i]?).map TranscriptionSegment.text := by
  cases call with
  | error e =>
    have heq : identifySpeakers segments (Except.error e) = segments := by
      by_cases h : segments.length = 0 <;> simp [identifySpeakers, h]
    rw [heq]
    exact ⟨rfl, fun i => ⟨rfl, rfl, rfl⟩⟩
  | ok m =>
    constructor
    · by_cases h : segments.length = 0 <;> simp [identifySpeakers, h]
    · intro i
      rw [identifySpeakers_ok_getElem]
      cases segments[i]? <;> simp

/-- The chunk loop only touches `chunkProgress` and `completedChunks`: every
other row field survives it unchanged. -/
theorem processChunksLoop_preserves (results : ℕ → ChunkResult)
    (chunks : List AudioChunk) (i : ℕ) (fullText : String)
    (allSegments : List TranscriptionSegment) (row : TranscriptionRow) :
    (processChunksLoop results chunks i fullText allSegments row).1.transcriptionText =
       row.transcriptionText ∧
    (processChunksLoop results chunks i fullText allSegments row).1.status = row.status ∧
    (processChunksLoop results chunks i fullText allSegments row).1.wordCount = row.wordCount ∧
    (processChunksLoop results chunks i fullText allSegments row).1.pageCount = row.pageCount ∧
    (processChunksLoop results chunks i fullText allSegments row).1.totalChunks =
       row.totalChunks ∧
    (processChunksLoop results chunks i fullText allSegments row).1.segments = row.segments := by
  induction chunks generalizing i fullText allSegments row with
  | nil => exact ⟨rfl, rfl, rfl, rfl, rfl, rfl⟩
  | cons c rest ih =>
    cases hres : results i with
    | ok text segs =>
      simp only [processChunksLoop, hres]
      exact ih _ _ _ _
    | err msg =>
      simp only [processChunksLoop, hres]
      exact ⟨rfl, rfl, rfl, rfl, rfl, rfl⟩

/-- A transcript of zero words yields zero pages. -/
theorem jsPageCount_zero : jsPageCount 0 = 0 := by
  norm_num [jsPageCount]

/-- C9: whenever a transcript is persisted — by pipeline completion or by a
user text edit — the stored `wordCount` is the number of non-empty
whitespace-split tokens of the text, the stored `pageCount` is
`ceil(wordCount / 250)`, and a word count of zero yields page count zero. -/
theorem wordCount_pageCount_spec (results : ℕ → ChunkResult)
    (chunks : List AudioChunk) (duration : ℚ) (useFreeCredit : Bool)
    (row0 : TranscriptionRow) (user : UserRow)
    (h0 : row0.transcriptionText = none) :
    (∀ t, (processTranscriptionProgressive results chunks duration useFreeCredit
        row0 user).1.transcriptionText = some t →
      (processTranscriptionProgressive results chunks duration useFreeCredit
        row0 user).1.wordCount = some (jsWordCount t) ∧
      (processTranscriptionProgressive results chunks duration useFreeCredit
        row0 user).1.pageCount = some (jsPageCount (jsWordCount t)) ∧
      (jsWordCount t = 0 →
        (processTranscriptionProgressive results chunks duration useFreeCredit
          row0 user).1.pageCount = some 0)) ∧
    (∀ (row : TranscriptionRow) (t : String),
      (saveEditedTranscriptionText row t).transcriptionText = some t ∧
      (saveEditedTranscriptionText row t).wordCount = some (jsWordCount t) ∧
      (saveEditedTranscriptionText row t).pageCount = some (jsPageCount (jsWordCount t)) ∧
      (jsWordCount t = 0 → (saveEditedTranscriptionText row t).pageCount = some 0)) := by
  constructor
  · intro t ht
    rcases hres : processChunksLoop results chunks 0 "" []
        (initProgressRow row0 chunks duration) with ⟨row2, res⟩
    cases res with
    | ok pair =>
      rcases pair with ⟨fullText, allSegments⟩
      have htext : t = fullText := by
        rw [processTranscriptionProgressive, hres] at ht
        by_cases hfree : useFreeCredit
        · simp only [hfree, if_true] at ht
          have ht2 : some fullText = some t := ht
          exact (Option.some.inj ht2).symm
        · simp only [hfree, if_false] at ht
          cases hded : deductCredits user ((jsPageCount (jsWordCount fullText) : ℕ) : ℤ) with
          | ok u1 =>
            rw [hded] at ht
            exact (Option.some.inj ht).symm
          | error e =>
            rw [hded] at ht
            exact (Option.some.inj ht).symm
      subst htext
      have hfields :
          (processTranscriptionProgressive results chunks duration useFreeCredit
            row0 user).1.wordCount = some (jsWordCount t) ∧
          (processTranscriptionProgressive results chunks duration useFreeCredit
            row0 user).1.pageCount = some (jsPageCount (jsWordCount t)) := by
        rw [processTranscriptionProgressive, hres]
        by_cases hfree : useFreeCredit
        · simp only [hfree, if_true]
          exact ⟨rfl, rfl⟩
        · simp only [hfree, if_false]
          cases hded : deductCredits user ((jsPageCount (jsWordCount t) : ℕ) : ℤ) with
          | ok u1 => exact ⟨rfl, rfl⟩
          | error e => exact ⟨rfl, rfl⟩
      refine ⟨hfields.1, hfields.2, fun hzero => ?_⟩
      rw [hfields.2, hzero, jsPageCount_zero]
    | error msg =>
      exfalso
      have hpres := (processChunksLoop_preserves results chunks 0 "" []
        (initProgressRow row0 chunks duration)).1
      rw [hres] at hpres
      rw [processTranscriptionProgressive, hres] at ht
      have : row2.transcriptionText = some t := ht
      rw [hpres] at this
      simp [initProgressRow, h0] at this
  · intro row t
    refine ⟨rfl, rfl, rfl, fun hzero => ?_⟩
    show some (jsPageCount (jsWordCount t)) = some 0
    rw [hzero, jsPageCount_zero]

/-- Sample pipeline input for the C9 witness: one chunk that transcribes
successfully. -/
def sampleResultsC9 : ℕ → ChunkResult := fun _ => ChunkResult.ok "ola mundo" []

/-- Sample freshly created row (`status: "preparing"`, no transcript). -/
def sampleRow0 : TranscriptionRow := { status := JobStatus.preparing }

/-- Witness for C9: a one-chunk free-trial run persists the transcript
together with the matching word and page counts. -/
theorem wordCount_pageCount_spec_witness :
    (processTranscriptionProgressive sampleResultsC9 [⟨"f", 0⟩] 5 true sampleRow0
      ⟨some 0, false⟩).1.wordCount = some (jsWordCount "ola mundo") ∧
    (processTranscriptionProgressive sampleResultsC9 [⟨"f", 0⟩] 5 true sampleRow0
      ⟨some 0, false⟩).1.pageCount = some (jsPageCount (jsWordCount "ola mundo")) :=
  ⟨((wordCount_pageCount_spec sampleResultsC9 [⟨"f", 0⟩] 5 true sampleRow0
      ⟨some 0, false⟩ rfl).1 "ola mundo" rfl).1,
   ((wordCount_pageCount_spec sampleResultsC9 [⟨"f", 0⟩] 5 true sampleRow0
      ⟨some 0, false⟩ rfl).1 "ola mundo" rfl).2.1⟩

/-- Unfolding of `updateChunkProgress` when the indexed entry exists. -/
theorem updateChunkProgress_chunkProgress_eq (row : TranscriptionRow) (i : ℕ)
    (p : ChunkProgressPatch) (cp : List TranscriptionChunkProgress)
    (e : TranscriptionChunkProgress) (hcp : row.chunkProgress = some cp)
    (he : cp[i]? = some e) :
    (updateChunkProgress row i p).chunkProgress = some (cp.set i (applyPatch e p)) := by
  simp [updateChunkProgress, hcp, he]

/-- Behaviour of the chunk loop when the first failure among the remaining
chunks happens at index `i`: chunks before `i` end `completed`, chunk `i`
ends `error` carrying the message, chunks after `i` stay `pending`, and the
loop rethrows the error. -/
theorem processChunksLoop_error_spec (results : ℕ → ChunkResult) (msg : String) :
    ∀ (rest : List AudioChunk) (k : ℕ) (fullText : String)
      (allSegments : List TranscriptionSegment) (row : TranscriptionRow)
      (cp : List TranscriptionChunkProgress),
      row.chunkProgress = some cp →
      cp.length = k + rest.length →
      (∀ j, j < k →
        (cp[j]?).map TranscriptionChunkProgress.status = some ChunkStatus.completed) →
      (∀ j, k ≤ j → j < cp.length →
        (cp[j]?).map TranscriptionChunkProgress.status = some ChunkStatus.pending) →
      ∀ i, k ≤ i → i < k + rest.length →
      (∀ j, k ≤ j → j < i → (results j).isOk = true) →
      results i = ChunkResult.err msg →
      ∃ cp2,
        (processChunksLoop results rest k fullText allSegments row).1.chunkProgress = some cp2 ∧
        cp2.length = cp.length ∧
        (processChunksLoop results rest k fullText allSegments row).2 = Except.error msg ∧
        (∀ j, j < i →
          (cp2[j]?).map TranscriptionChunkProgress.status = some ChunkStatus.completed) ∧
        (cp2[i]?).map TranscriptionChunkProgress.status = some ChunkStatus.error ∧
        (cp2[i]?).map TranscriptionChunkProgress.error = some (some msg) ∧
        (∀ j, i < j → j < cp2.length →
          (cp2[j]?).map TranscriptionChunkProgress.status = some ChunkStatus.pending) := by
  intro rest
  induction rest with
  | nil =>
    intro k fullText allSegments row cp hcp hlen hcomp hpend i hki hi hok herr
    simp only [List.length_nil, Nat.add_zero] at hi
    omega
  | cons c rest ih =>
    intro k fullText allSegments row cp hcp hlen hcomp hpend i hki hi hok herr
    have hkcp : k < cp.length := by simp at hlen; omega
    obtain ⟨e, he⟩ : ∃ e, cp[k]? = some e := ⟨cp.get ⟨k, hkcp⟩, by
      rw [List.get_eq_getElem]
      exact List.getElem?_eq_getElem hkcp⟩
    have hrow1 := updateChunkProgress_chunkProgress_eq row k
      { status := some ChunkStatus.processing } cp e hcp he
    rcases Nat.eq_or_lt_of_le hki with hk_eq | hk_lt
    · subst hk_eq
      rw [processChunksLoop, herr]
      have hlen1 : k < (cp.set k (applyPatch e { status := some ChunkStatus.processing })).length := by
        rw [List.length_set]; exact hkcp
      have he1 : (cp.set k (applyPatch e { status := some ChunkStatus.processing }))[k]? =
          some (applyPatch e { status := some ChunkStatus.processing }) :=
        List.getElem?_set_self hkcp
      have hrow2 := updateChunkProgress_chunkProgress_eq
        (updateChunkProgress row k { status := some ChunkStatus.processing }) k
        { status := some ChunkStatus.error, error := some msg } _ _ hrow1 he1
      refine ⟨_, hrow2, ?_, rfl, ?_, ?_, ?_, ?_⟩
      · rw [List.length_set, List.length_set]
      · intro j hj
        rw [List.getElem?_set_ne (by omega), List.getElem?_set_ne (by omega)]
        exact hcomp j hj
      · rw [List.getElem?_set_self (by rw [List.length_set]; exact hkcp)]
        simp [applyPatch]
      · rw [List.getElem?_set_self (by rw [List.length_set]; exact hkcp)]
        simp [applyPatch]
      · intro j hj hjlen
        rw [List.length_set, List.length_set] at hjlen
        rw [List.getElem?_set_ne (by omega), List.getElem?_set_ne (by omega)]
        exact hpend j (by omega) hjlen
    · have hkok : (results k).isOk = true := hok k (le_refl k) hk_lt
      cases hres : results k with
      | err m => rw [hres] at hkok; simp [ChunkResult.isOk] at hkok
      | ok text segs =>
        rw [processChunksLoop, hres]
        have hlen1 : k < (cp.set k (applyPatch e { status := some ChunkStatus.processing })).length := by
          rw [List.length_set]; exact hkcp
        have he1 : (cp.set k (applyPatch e { status := some ChunkStatus.processing }))[k]? =
            some (applyPatch e { status := some ChunkStatus.processing }) :=
          List.getElem?_set_self hkcp
        have hrow2 := updateChunkProgress_chunkProgress_eq
          (updateChunkProgress row k { status := some ChunkStatus.processing }) k
          { status := some ChunkStatus.completed, text := some text, segments := some segs }
          _ _ hrow1 he1
        obtain ⟨cp2, h1, h2, h3, h4, h5, h6, h7⟩ := ih (k + 1)
          (fullText ++ (if fullText = "" then "" else " ") ++ text)
          (allSegments ++ segs) _ _ hrow2
          (by simp only [List.length_set, List.length_cons] at hlen ⊢; omega)
          (by
            intro j hj
            rcases Nat.lt_or_ge j k with hjk | hjk
            · rw [List.getElem?_set_ne (by omega), List.getElem?_set_ne (by omega)]
              exact hcomp j hjk
            · have hjeq : j = k := by omega
              subst hjeq
              rw [List.getElem?_set_self (by rw [List.length_set]; exact hkcp)]
              simp [applyPatch])
          (by
            intro j hj hjlen
            rw [List.length_set, List.length_set] at hjlen
            rw [List.getElem?_set_ne (by omega), List.getElem?_set_ne (by omega)]
            exact hpend j (by omega) hjlen)
          i hk_lt (by simp only [List.length_cons] at hi; omega)
          (fun j hj hji => hok j (by omega) hji) herr
        refine ⟨cp2, h1, ?_, h3, h4, h5, h6, h7⟩
        rw [h2, List.length_set, List.length_set]

/-- The initial chunk-progress list has one `pending` entry per chunk. -/
theorem initChunkProgress_spec (chunks : List AudioChunk) :
    (initChunkProgress chunks).length = chunks.length ∧
    ∀ j, j < chunks.length →
      ((initChunkProgress chunks)[j]?).map TranscriptionChunkProgress.status =
        some ChunkStatus.pending := by
  constructor
  · simp [initChunkProgress]
  · intro j hj
    simp only [initChunkProgress]
    rw [List.getElem?_map, List.getElem?_enum, List.getElem?_eq_getElem hj]
    simp

/-- C3: if the transcription call for chunk `i` throws while chunks
`0..i-1` succeeded, the orchestrator marks `chunkProgress[i]` as `error`
with the message, marks the job `error`, leaves every earlier chunk
`completed` and every later chunk `pending`, and never writes
`transcriptionText`. -/
theorem processTranscriptionProgressive_abort_spec
    (results : ℕ → ChunkResult) (chunks : List AudioChunk) (duration : ℚ)
    (useFreeCredit : Bool) (row0 : TranscriptionRow) (user : UserRow)
    (i : ℕ) (msg : String)
    (hi : i < chunks.length)
    (hok : ∀ j, j < i → (results j).isOk = true)
    (herr : results i = ChunkResult.err msg)
    (h0 : row0.transcriptionText = none) :
    (processTranscriptionProgressive results chunks duration useFreeCredit
      row0 user).1.status = JobStatus.error ∧
    (processTranscriptionProgressive results chunks duration useFreeCredit
      row0 user).1.transcriptionText = none ∧
    ∃ cp2,
      (processTranscriptionProgressive results chunks duration useFreeCredit
        row0 user).1.chunkProgress = some cp2 ∧
      cp2.length = chunks.length ∧
      (∀ j, j < i →
        (cp2[j]?).map TranscriptionChunkProgress.status = some ChunkStatus.completed) ∧
      (cp2[i]?).map TranscriptionChunkProgress.status = some ChunkStatus.error ∧
      (cp2[i]?).map TranscriptionChunkProgress.error = some (some msg) ∧
      (∀ j, i < j → j < cp2.length →
        (cp2[j]?).map TranscriptionChunkProgress.status = some ChunkStatus.pending) := by
  obtain ⟨cp2, h1, h2, h3, h4, h5, h6, h7⟩ :=
    processChunksLoop_error_spec results msg chunks 0 "" []
      (initProgressRow row0 chunks duration) (initChunkProgress chunks)
      rfl
      (by simp [initChunkProgress])
      (by intro j hj; exact absurd hj (Nat.not_lt_zero j))
      (by
        intro j hj hjlen
        exact (initChunkProgress_spec chunks).2 j
          (by rwa [(initChunkProgress_spec chunks).1] at hjlen))
      i (Nat.zero_le i) (by omega) (fun j hj hji => hok j hji) herr
  rcases hres : processChunksLoop results chunks 0 "" []
      (initProgressRow row0 chunks duration) with ⟨row2, res⟩
  rw [hres] at h1 h3
  have hres2 : res = Except.error msg := h3
  subst hres2
  have hfinal : processTranscriptionProgressive results chunks duration useFreeCredit
      row0 user = ({ row2 with status := JobStatus.error }, user, []) := by
    rw [processTranscriptionProgressive, hres]
  rw [hfinal]
  refine ⟨rfl, ?_, cp2, h1, ?_, h4, h5, h6, h7⟩
  · have hpres := (processChunksLoop_preserves results chunks 0 "" []
      (initProgressRow row0 chunks duration)).1
    rw [hres] at hpres
    show row2.transcriptionText = none
    rw [hpres]
    simp [initProgressRow, h0]
  · rw [h2]
    simp [initChunkProgress]

/-- Sample chunk outcomes for the C3 witness: chunk 0 succeeds, chunk 1
throws. -/
def sampleResultsC3 : ℕ → ChunkResult := fun j =>
  if j = 0 then ChunkResult.ok "oi" [] else ChunkResult.err "falha"

/-- Sample three-chunk split for the C3 witness. -/
def sampleChunksC3 : List AudioChunk := [⟨"c0", 0⟩, ⟨"c1", 600⟩, ⟨"c2", 1200⟩]

/-- Witness for C3 at a three-chunk job whose second chunk fails. -/
theorem processTranscriptionProgressive_abort_spec_witness :
    (processTranscriptionProgressive sampleResultsC3 sampleChunksC3 1500 true sampleRow0
      ⟨some 0, false⟩).1.status = JobStatus.error ∧
    (processTranscriptionProgressive sampleResultsC3 sampleChunksC3 1500 true sampleRow0
      ⟨some 0, false⟩).1.transcriptionText = none ∧
    ∃ cp2,
      (processTranscriptionProgressive sampleResultsC3 sampleChunksC3 1500 true sampleRow0
        ⟨some 0, false⟩).1.chunkProgress = some cp2 ∧
      cp2.length = sampleChunksC3.length ∧
      (∀ j, j < 1 →
        (cp2[j]?).map TranscriptionChunkProgress.status = some ChunkStatus.completed) ∧
      (cp2[1]?).map TranscriptionChunkProgress.status = some ChunkStatus.error ∧
      (cp2[1]?).map TranscriptionChunkProgress.error = some (some "falha") ∧
      (∀ j, 1 < j → j < cp2.length →
        (cp2[j]?).map TranscriptionChunkProgress.status = some ChunkStatus.pending) :=
  processTranscriptionProgressive_abort_spec sampleResultsC3 sampleChunksC3 1500 true
    sampleRow0 ⟨some 0, false⟩ 1 "falha" (by decide) (by decide) rfl rfl

/-- Every re-based segment of the chunks numbered from `n` on starts at or
after `n * c`, provided relative starts are non-negative. -/
theorem concatFrom_lower_bound (c : ℚ) (hc : 0 ≤ c) :
    ∀ (responses : List (List RawSegment)) (n : ℕ),
      (∀ l ∈ responses, ∀ r ∈ l, 0 ≤ r.start) →
      ∀ s ∈ ((responses.enumFrom n).map fun p =>
          rebaseSegments ((p.1 : ℚ) * c) p.2).flatten,
        (n : ℚ) * c ≤ s.start := by
  intro responses
  induction responses with
  | nil =>
    intro n hlb s hs
    simp at hs
  | cons l rest ih =>
    intro n hlb s hs
    rw [List.enumFrom_cons] at hs
    simp only [List.map_cons, List.flatten_cons] at hs
    rcases List.mem_append.mp hs with hsl | hsr
    · rcases List.mem_map.mp hsl with ⟨r, hrl, rfl⟩
      have h0 : 0 ≤ r.start := hlb l (List.mem_cons_self l rest) r hrl
      show (n : ℚ) * c ≤ r.start + (n : ℚ) * c
      linarith
    · have hy := ih (n + 1)
        (fun l2 hl2 r hr => hlb l2 (List.mem_cons_of_mem _ hl2) r hr) s hsr
      have hcast : ((n + 1 : ℕ) : ℚ) = (n : ℚ) + 1 := by push_cast; ring
      rw [hcast, add_mul, one_mul] at hy
      linarith

/-- Chain version of the concatenation of the chunks numbered from `n` on:
with per-chunk sorted responses and relative starts inside `[0, c]`, the
flattened, re-based list is sorted by start. -/
theorem concatFrom_chain (c : ℚ) (hc : 0 ≤ c) :
    ∀ (responses : List (List RawSegment)) (n : ℕ),
      (∀ l ∈ responses, l.Chain' fun a b => a.start ≤ b.start) →
      (∀ l ∈ responses, ∀ r ∈ l, 0 ≤ r.start ∧ r.start ≤ c) →
      (((responses.enumFrom n).map fun p =>
          rebaseSegments ((p.1 : ℚ) * c) p.2).flatten).Chain'
        (fun a b => a.start ≤ b.start) := by
  intro responses
  induction responses with
  | nil =>
    intro n _ _
    simp
  | cons l rest ih =>
    intro n hsorted hbounds
    rw [List.enumFrom_cons]
    simp only [List.map_cons, List.flatten_cons]
    rw [List.chain'_append]
    refine ⟨?_, ?_, ?_⟩
    · have hl := hsorted l (List.mem_cons_self l rest)
      rw [rebaseSegments, List.chain'_map]
      exact hl.imp fun a b hab => by
        show a.start + (n : ℚ) * c ≤ b.start + (n : ℚ) * c
        linarith
    · exact ih (n + 1) (fun l2 h2 => hsorted l2 (List.mem_cons_of_mem _ h2))
        (fun l2 h2 => hbounds l2 (List.mem_cons_of_mem _ h2))
    · intro x hx y hy
      have hxmem : x ∈ rebaseSegments ((n : ℚ) * c) l := List.mem_of_mem_getLast? hx
      rcases List.mem_map.mp hxmem with ⟨r, hrl, rfl⟩
      have hrb : r.start ≤ c := (hbounds l (List.mem_cons_self l rest) r hrl).2
      have hymem := List.mem_of_mem_head? hy
      have hylb := concatFrom_lower_bound c hc rest (n + 1)
        (fun l2 h2 r2 hr2 => (hbounds l2 (List.mem_cons_of_mem _ h2) r2 hr2).1) y hymem
      have hcast : ((n + 1 : ℕ) : ℚ) = (n : ℚ) + 1 := by push_cast; ring
      rw [hcast, add_mul, one_mul] at hylb
      show r.start + (n : ℚ) * c ≤ y.start
      linarith

/-- C2: assuming each chunk's API response is ordered by relative start time
and every relative start lies within `[0, c]`, the concatenation of the
per-chunk segment lists in index order — each chunk re-based by its offset
`i * c` — is globally ordered: adjacent segments have non-decreasing starts. -/
theorem concatChunkSegments_ordered (c : ℚ) (responses : List (List RawSegment))
    (hc : 0 ≤ c)
    (hsorted : ∀ l ∈ responses, l.Chain' fun a b => a.start ≤ b.start)
    (hbounds : ∀ l ∈ responses, ∀ r ∈ l, 0 ≤ r.start ∧ r.start ≤ c) :
    (concatChunkSegments c responses).Chain' fun a b => a.start ≤ b.start := by
  have henum : responses.enum = responses.enumFrom 0 := rfl
  rw [concatChunkSegments, henum]
  exact concatFrom_chain c hc responses 0 hsorted hbounds

/-- Sample two-chunk API responses for the C2 witness. -/
def sampleResponsesC2 : List (List RawSegment) :=
  [[⟨0, 5, "a"⟩, ⟨300, 400, "b"⟩], [⟨10, 20, "c"⟩]]

/-- Witness for C2 at `c = 600` with two in-order chunk responses. -/
theorem concatChunkSegments_ordered_witness :
    (0 : ℚ) ≤ 600 ∧
    (concatChunkSegments 600 sampleResponsesC2).Chain' fun a b => a.start ≤ b.start :=
  ⟨by decide,
   concatChunkSegments_ordered 600 sampleResponsesC2 (by decide)
     (by
       intro l hl
       simp only [sampleResponsesC2, List.mem_cons, List.not_mem_nil, or_false] at hl
       rcases hl with rfl | rfl
       · rw [List.chain'_cons]
         exact ⟨by decide, List.chain'_singleton _⟩
       · exact List.chain'_singleton _)
     (by
       intro l hl r hr
       simp only [sampleResponsesC2, List.mem_cons, List.not_mem_nil, or_false] at hl
       rcases hl with rfl | rfl <;>
         simp only [List.mem_cons, List.not_mem_nil, or_false] at hr
       · rcases hr with rfl | rfl
         · exact ⟨by decide, by decide⟩
         · exact ⟨by decide, by decide⟩
       · rcases hr with rfl
         exact ⟨by decide, by decide⟩)⟩

/-- When every remaining chunk transcribes successfully, the chunk loop
returns a success. -/
theorem processChunksLoop_ok_spec (results : ℕ → ChunkResult) :
    ∀ (chunks : List AudioChunk) (k : ℕ) (fullText : String)
      (allSegments : List TranscriptionSegment) (row : TranscriptionRow),
      (∀ j, k ≤ j → j < k + chunks.length → (results j).isOk = true) →
      ∃ fullText2 allSegments2 row2,
        processChunksLoop results chunks k fullText allSegments row =
          (row2, Except.ok (fullText2, allSegments2)) := by
  intro chunks
  induction chunks with
  | nil =>
    intro k fullText allSegments row hok
    exact ⟨fullText, allSegments, row, rfl⟩
  | cons c rest ih =>
    intro k fullText allSegments row hok
    have hkok : (results k).isOk = true :=
      hok k (le_refl k) (by simp only [List.length_cons]; omega)
    cases hres : results k with
    | err m =>
      rw [hres] at hkok
      simp [ChunkResult.isOk] at hkok
    | ok text segs =>
      rw [processChunksLoop, hres]
      exact ih (k + 1) _ _ _
        (fun j hj hjl => hok j (by omega)
          (by simp only [List.length_cons] at hjl ⊢; omega))

/-- C8 (amended): on a successful run exactly one credit-ledger call is made
— `markFreeTranscriptionUsed` for a free-trial job, `deductCredits` of
exactly the job's persisted `pageCount` for a paid job; re-running the
free-path settlement is idempotent, but re-running the paid-path settlement
deducts the credits a second time, since `deductCredits` is an unguarded
balance decrement. -/
theorem settleCredits_once_spec (results : ℕ → ChunkResult)
    (chunks : List AudioChunk) (duration : ℚ) (useFreeCredit : Bool)
    (row0 : TranscriptionRow) (user : UserRow)
    (hok : ∀ j, j < chunks.length → (results j).isOk = true) :
    (∃ call, (processTranscriptionProgressive results chunks duration useFreeCredit
        row0 user).2.2 = [call] ∧
      (useFreeCredit = true → call = LedgerCall.markFreeUsed) ∧
      (useFreeCredit = false → ∃ n : ℕ,
        (processTranscriptionProgressive results chunks duration useFreeCredit
          row0 user).1.pageCount = some n ∧
        call = LedgerCall.deduct (n : ℤ))) ∧
    (∀ p, settleCredits true p (markFreeTranscriptionUsed user) =
      settleCredits true p user) ∧
    (∀ (u u1 u2 : UserRow) (amount : ℤ),
      deductCredits u amount = Except.ok u1 →
      deductCredits u1 amount = Except.ok u2 →
      u2.credits = some (u.credits.getD 0 - amount - amount)) := by
  refine ⟨?_, ?_, ?_⟩
  · obtain ⟨fullText2, allSegments2, row2, hres⟩ :=
      processChunksLoop_ok_spec results chunks 0 "" []
        (initProgressRow row0 chunks duration)
        (fun j hj hjl => hok j (by omega))
    rw [processTranscriptionProgressive, hres]
    cases useFreeCredit with
    | true =>
      refine ⟨LedgerCall.markFreeUsed, ?_, ⟨fun _ => rfl, fun h => Bool.noConfusion h⟩⟩
      simp
    | false =>
      cases hded : deductCredits user ((jsPageCount (jsWordCount fullText2) : ℕ) : ℤ) with
      | ok u1 =>
        refine ⟨LedgerCall.deduct ((jsPageCount (jsWordCount fullText2) : ℕ) : ℤ), ?_,
          ⟨fun h => Bool.noConfusion h,
           fun _ => ⟨jsPageCount (jsWordCount fullText2), ?_, rfl⟩⟩⟩
        · simp [hded]
        · simp [hded, finalizeSuccess]
      | error e =>
        refine ⟨LedgerCall.deduct ((jsPageCount (jsWordCount fullText2) : ℕ) : ℤ), ?_,
          ⟨fun h => Bool.noConfusion h,
           fun _ => ⟨jsPageCount (jsWordCount fullText2), ?_, rfl⟩⟩⟩
        · simp [hded]
        · simp [hded, finalizeSuccess]
  · intro p
    rfl
  · intro u u1 u2 amount h1 h2
    by_cases hc1 : u.credits.getD 0 < amount
    · rw [deductCredits] at h1
      simp only [hc1, if_true] at h1
      cases h1
    · rw [deductCredits] at h1
      simp only [hc1, if_false] at h1
      have hu1 : u1 = { u with credits := some (u.credits.getD 0 - amount) } :=
        (Except.ok.inj h1).symm
      subst hu1
      by_cases hc2 : (u.credits.getD 0 - amount) < amount
      · rw [deductCredits] at h2
        simp only [Option.getD_some, hc2, if_true] at h2
        cases h2
      · rw [deductCredits] at h2
        simp only [Option.getD_some, hc2, if_false] at h2
        have hu2 : u2 = { u with credits := some (u.credits.getD 0 - amount - amount) } :=
          (Except.ok.inj h2).symm
        subst hu2
        rfl

/-- Counterexample for C8 as frozen: re-running the paid settlement for an
already settled job deducts the credits again (balance 10 → 7 → 4, not 7). -/
theorem settleCredits_not_idempotent_counterexample :
    settleCredits false 3 ⟨some 10, false⟩ = Except.ok ⟨some 7, false⟩ ∧
    settleCredits false 3 ⟨some 7, false⟩ = Except.ok ⟨some 4, false⟩ ∧
    (⟨some 4, false⟩ : UserRow) ≠ ⟨some 7, false⟩ := by
  refine ⟨rfl, rfl, by decide⟩

/-- Witness for C8's amended theorem at a one-chunk paid job: the single
ledger call deducts exactly the persisted page count. -/
theorem settleCredits_once_spec_witness :
    (∃ call, (processTranscriptionProgressive sampleResultsC9 [⟨"f", 0⟩] 5 false sampleRow0
        ⟨some 10, false⟩).2.2 = [call] ∧
      (false = true → call = LedgerCall.markFreeUsed) ∧
      (false = false → ∃ n : ℕ,
        (processTranscriptionProgressive sampleResultsC9 [⟨"f", 0⟩] 5 false sampleRow0
          ⟨some 10, false⟩).1.pageCount = some n ∧
        call = LedgerCall.deduct (n : ℤ))) ∧
    (∀ p, settleCredits true p (markFreeTranscriptionUsed ⟨some 10, false⟩) =
      settleCredits true p ⟨some 10, false⟩) ∧
    (∀ (u u1 u2 : UserRow) (amount : ℤ),
      deductCredits u amount = Except.ok u1 →
      deductCredits u1 amount = Except.ok u2 →
      u2.credits = some (u.credits.getD 0 - amount - amount)) :=
  settleCredits_once_spec sampleResultsC9 [⟨"f", 0⟩] 5 false sampleRow0
    ⟨some 10, false⟩ (by decide)

/-- Absorbing one more segment into a merged run equals merging the extended
run. -/
theorem mergeRun_snoc (s : TranscriptionSegment) (rest : List TranscriptionSegment)
    (seg : TranscriptionSegment) :
    mergeRun ((s :: rest) ++ [seg]) = mergeStep (mergeRun (s :: rest)) seg := by
  simp [mergeRun, List.foldl_append]

/-- The compaction loop computes exactly the merge of each minute-bucket run. -/
theorem groupGo_eq_map_mergeRun :
    ∀ (l : List TranscriptionSegment) (cur : ℤ) (s : TranscriptionSegment)
      (rest : List TranscriptionSegment),
      groupGo cur (mergeRun (s :: rest)) l = (runsGo cur (s :: rest) l).map mergeRun := by
  intro l
  induction l with
  | nil => intro cur s rest; rfl
  | cons seg l ih =>
    intro cur s rest
    simp only [groupGo, runsGo]
    by_cases h : minuteOf seg.start = cur
    · rw [if_pos h, if_pos h, ← mergeRun_snoc]
      have hacc : (s :: rest) ++ [seg] = s :: (rest ++ [seg]) := by simp
      rw [hacc]
      exact ih cur s (rest ++ [seg])
    · rw [if_neg h, if_neg h, List.map_cons]
      congr 1
      exact ih (minuteOf seg.start) seg []

/-- The run decomposition never produces more runs than one plus the number
of remaining segments. -/
theorem runsGo_length_le :
    ∀ (l : List TranscriptionSegment) (cur : ℤ) (acc : List TranscriptionSegment),
      (runsGo cur acc l).length ≤ 1 + l.length := by
  intro l
  induction l with
  | nil => intro cur acc; simp [runsGo]
  | cons seg l ih =>
    intro cur acc
    simp only [runsGo]
    by_cases h : minuteOf seg.start = cur
    · rw [if_pos h]
      have := ih cur (acc ++ [seg])
      simp only [List.length_cons]
      omega
    · rw [if_neg h]
      have := ih (minuteOf seg.start) [seg]
      simp only [List.length_cons]
      omega

/-- Folding `mergeStep` leaves the end of the last absorbed segment. -/
theorem foldl_mergeStep_endTime :
    ∀ (rest : List TranscriptionSegment) (acc last : TranscriptionSegment),
      rest.getLast? = some last →
      (rest.foldl mergeStep acc).endTime = last.endTime := by
  intro rest
  induction rest with
  | nil => intro acc last h; cases h
  | cons seg rest ih =>
    intro acc last h
    cases rest with
    | nil =>
      have hl : seg = last := by simpa using h
      subst hl
      rfl
    | cons seg2 rest2 =>
      rw [List.getLast?_cons_cons] at h
      rw [List.foldl_cons]
      exact ih (mergeStep acc seg) last h

/-- The merged run's end is the last constituent's end. -/
theorem mergeRun_endTime (s : TranscriptionSegment) (rest : List TranscriptionSegment)
    (last : TranscriptionSegment) (h : (s :: rest).getLast? = some last) :
    (mergeRun (s :: rest)).endTime = last.endTime := by
  cases rest with
  | nil =>
    have hl : s = last := by simpa using h
    subst hl
    rfl
  | cons b l2 =>
    rw [List.getLast?_cons_cons] at h
    exact foldl_mergeStep_endTime (b :: l2) s last h

/-- In a list whose end times are non-decreasing, every element's end is at
most the last element's end. -/
theorem chain_endTime_le :
    ∀ (l : List TranscriptionSegment),
      l.Chain' (fun x y => x.endTime ≤ y.endTime) →
      ∀ last, l.getLast? = some last → ∀ x ∈ l, x.endTime ≤ last.endTime := by
  intro l
  induction l with
  | nil => intro _ last h; cases h
  | cons a l ih =>
    intro hch last hlast x hx
    cases l with
    | nil =>
      have hl : a = last := by simpa using hlast
      subst hl
      rcases List.mem_singleton.mp hx with rfl
      exact le_refl _
    | cons b l2 =>
      rw [List.getLast?_cons_cons] at hlast
      rw [List.chain'_cons] at hch
      rcases List.mem_cons.mp hx with rfl | hx2
      · exact le_trans hch.1 (ih hch.2 last hlast b (List.mem_cons_self _ _))
      · exact ih hch.2 last hlast x hx2

/-- For a run with non-decreasing end times, the merged segment's end bounds
every constituent's end. -/
theorem run_end_le (s : TranscriptionSegment) (rest : List TranscriptionSegment)
    (hch : (s :: rest).Chain' fun x y => x.endTime ≤ y.endTime) :
    ∀ x ∈ s :: rest, x.endTime ≤ (mergeRun (s :: rest)).endTime := by
  obtain ⟨last, hlast⟩ : ∃ last, (s :: rest).getLast? = some last := by
    cases h : (s :: rest).getLast? with
    | none => simp at h
    | some v => exact ⟨v, rfl⟩
  intro x hx
  rw [mergeRun_endTime s rest last hlast]
  exact chain_endTime_le (s :: rest) hch last hlast x hx

/-- Every run produced by `runsGo` from a list with non-decreasing end times
satisfies the merged-end bound. -/
theorem runsGo_end_le :
    ∀ (l : List TranscriptionSegment) (cur : ℤ) (s : TranscriptionSegment)
      (rest : List TranscriptionSegment),
      ((s :: rest) ++ l).Chain' (fun x y => x.endTime ≤ y.endTime) →
      ∀ r ∈ runsGo cur (s :: rest) l, ∀ x ∈ r, x.endTime ≤ (mergeRun r).endTime := by
  intro l
  induction l with
  | nil =>
    intro cur s rest hch r hr x hx
    simp only [runsGo, List.mem_singleton] at hr
    subst hr
    rw [List.append_nil] at hch
    exact run_end_le s rest hch x hx
  | cons seg l ih =>
    intro cur s rest hch r hr x hx
    simp only [runsGo] at hr
    by_cases h : minuteOf seg.start = cur
    · rw [if_pos h] at hr
      have hch2 : ((s :: (rest ++ [seg])) ++ l).Chain'
          (fun x y => x.endTime ≤ y.endTime) := by
        simpa [List.append_assoc] using hch
      have hacc : (s :: rest) ++ [seg] = s :: (rest ++ [seg]) := by simp
      rw [hacc] at hr
      exact ih cur s (rest ++ [seg]) hch2 r hr x hx
    · rw [if_neg h] at hr
      rcases List.mem_cons.mp hr with rfl | hr2
      · exact run_end_le s rest (List.chain'_append.mp hch).1 x hx
      · exact ih (minuteOf seg.start) seg []
          (by simpa using (List.chain'_append.mp hch).2.1) r hr2 x hx

/-- C7 (amended): the Segment Compactor returns the empty list on empty
input, never returns more segments than it was given, and equals the
minute-bucket run decomposition mapped through the run merge; provided the
input's end times are non-decreasing along the list, every merged output
segment's end is at least the end of every input sub-segment merged into it.
(The merge sets the output's end to the LAST constituent's end, so without
the monotonicity proviso an earlier constituent can exceed it.) -/
theorem groupSegmentsByMinute_spec (l : List TranscriptionSegment) :
    groupSegmentsByMinute ([] : List TranscriptionSegment) = [] ∧
    (groupSegmentsByMinute l).length ≤ l.length ∧
    groupSegmentsByMinute l = (minuteRuns l).map mergeRun ∧
    (l.Chain' (fun a b => a.endTime ≤ b.endTime) →
      ∀ r ∈ minuteRuns l, ∀ x ∈ r, x.endTime ≤ (mergeRun r).endTime) := by
  have heq : groupSegmentsByMinute l = (minuteRuns l).map mergeRun := by
    cases l with
    | nil => rfl
    | cons s rest => exact groupGo_eq_map_mergeRun rest (minuteOf s.start) s []
  refine ⟨rfl, ?_, heq, ?_⟩
  · rw [heq]
    cases l with
    | nil => simp [minuteRuns]
    | cons s rest =>
      rw [List.length_map]
      calc (runsGo (minuteOf s.start) [s] rest).length
          ≤ 1 + rest.length := runsGo_length_le rest _ _
        _ = (s :: rest).length := by simp [Nat.add_comm]
  · intro hch r hr x hx
    cases l with
    | nil => simp [minuteRuns] at hr
    | cons s rest =>
      exact runsGo_end_le rest (minuteOf s.start) s [] (by simpa using hch) r hr x hx

/-- One-segment input used to witness C7's amended theorem. -/
def wSegC7 : TranscriptionSegment := ⟨5, 10, "a", none⟩

/-- Witness for C7's amended theorem on a one-segment input. -/
theorem groupSegmentsByMinute_spec_witness :
    groupSegmentsByMinute ([] : List TranscriptionSegment) = [] ∧
    (groupSegmentsByMinute [wSegC7]).length ≤ [wSegC7].length ∧
    wSegC7.endTime ≤ (mergeRun [wSegC7]).endTime :=
  ⟨(groupSegmentsByMinute_spec [wSegC7]).1,
   (groupSegmentsByMinute_spec [wSegC7]).2.1,
   (groupSegmentsByMinute_spec [wSegC7]).2.2.2 (List.chain'_singleton _)
     [wSegC7] (by simp [minuteRuns, runsGo]) wSegC7 (by simp)⟩

/-- First segment of the C7 counterexample: ends at 50. -/
def cexSeg1 : TranscriptionSegment := ⟨0, 50, "a", none⟩

/-- Second segment of the C7 counterexample: same minute, ends at 20. -/
def cexSeg2 : TranscriptionSegment := ⟨10, 20, "b", none⟩

/-- Counterexample for C7 as frozen: both segments fall into minute bucket 0
and are merged into one segment whose end is the LAST constituent's end (20),
strictly below the first constituent's end (50), refuting that a merged
segment's end is at least every constituent's end. -/
theorem groupSegmentsByMinute_end_counterexample :
    minuteRuns [cexSeg1, cexSeg2] = [[cexSeg1, cexSeg2]] ∧
    groupSegmentsByMinute [cexSeg1, cexSeg2] = [mergeRun [cexSeg1, cexSeg2]] ∧
    cexSeg1 ∈ [cexSeg1, cexSeg2] ∧
    (mergeRun [cexSeg1, cexSeg2]).endTime = 20 ∧
    cexSeg1.endTime = 50 ∧
    ¬ ((50 : ℚ) ≤ 20) := by
  have h1 : minuteOf cexSeg1.start = 0 := by norm_num [minuteOf, cexSeg1]
  have h2 : minuteOf cexSeg2.start = 0 := by norm_num [minuteOf, cexSeg2]
  refine ⟨?_, ?_, by simp, rfl, rfl, by norm_num⟩
  · simp [minuteRuns, runsGo, h1, h2]
  · simp [groupSegmentsByMinute, groupGo, h1, h2, mergeRun]
